import Mathlib

/-!
# FileDropeer upload engine — verification development

Shallow embedding of the client-side upload engine of
`src/components/file-uploader.tsx` (the WebSocket challenge-response
variant): the SHA-256 auth handshake, the binary metadata header
encoder, the 4 MiB chunker, the per-entry upload state machine and the
concurrency scheduler, together with theorems about the spec's claims.
Machine integers are modelled as `Nat` with explicit `% 2^w`; the JS
`number` used for `progress` is modelled as `Option Nat` (`none` for
`NaN`, which `Math.round((0 / 0) * 100)` produces for empty files).
-/

namespace FileDropper

/-- `const CHUNK_SIZE = 4 * 1024 * 1024` (4 MiB). -/
def CHUNK_SIZE : Nat := 4 * 1024 * 1024

/-- `const MAX_CONCURRENT_UPLOADS = 8`. -/
def MAX_CONCURRENT_UPLOADS : Nat := 8

/-! ## Bytes, UTF-8 and hex -/

/-- Big-endian byte list of `v % 2^(8*k)`, `k` bytes long.  Models how
`DataView.setInt32`/`setBigInt64` (big-endian) lay out an integer. -/
def beBytes : Nat → Nat → List Nat
  | 0, _ => []
  | k + 1, v => beBytes k (v / 256) ++ [v % 256]

/-- UTF-8 encoding of one character (what `TextEncoder.encode` does
per code point). -/
def utf8EncodeChar (c : Char) : List Nat :=
  let n := c.toNat
  if n < 0x80 then [n]
  else if n < 0x800 then
    [0xC0 ||| (n >>> 6), 0x80 ||| (n &&& 0x3F)]
  else if n < 0x10000 then
    [0xE0 ||| (n >>> 12), 0x80 ||| ((n >>> 6) &&& 0x3F), 0x80 ||| (n &&& 0x3F)]
  else
    [0xF0 ||| (n >>> 18), 0x80 ||| ((n >>> 12) &&& 0x3F),
     0x80 ||| ((n >>> 6) &&& 0x3F), 0x80 ||| (n &&& 0x3F)]

/-- UTF-8 bytes of a string: `new TextEncoder().encode(s)`. -/
def utf8Encode (s : String) : List Nat := (s.data.map utf8EncodeChar).flatten

/-- One lowercase hex digit, as produced by `b.toString(16)`. -/
def hexChar (n : Nat) : Char :=
  if n < 10 then Char.ofNat (48 + n) else Char.ofNat (87 + n)

/-- Two lowercase hex digits of a byte: `b.toString(16).padStart(2, '0')`. -/
def byteToHex (b : Nat) : List Char := [hexChar (b / 16), hexChar (b % 16)]

/-- `hashArray.map(b => b.toString(16).padStart(2, '0')).join('')`. -/
def bytesToHex (bs : List Nat) : String := ⟨(bs.map byteToHex).flatten⟩

/-! ## SHA-256 (`crypto.subtle.digest('SHA-256', ...)`)

The client's `sha256` helper delegates to WebCrypto; we model that
primitive by FIPS 180-4 SHA-256 over byte lists, all arithmetic on
`Nat` reduced mod `2^32`. -/

/-- Truncate to a 32-bit word. -/
def w32 (x : Nat) : Nat := x % 4294967296

/-- 32-bit right rotation. -/
def rotr32 (k x : Nat) : Nat := w32 ((x >>> k) ||| (x <<< (32 - k)))

/-- 32-bit bitwise complement. -/
def not32 (x : Nat) : Nat := x ^^^ 0xFFFFFFFF

def chFn (x y z : Nat) : Nat := (x &&& y) ^^^ (not32 x &&& z)

def majFn (x y z : Nat) : Nat := (x &&& y) ^^^ (x &&& z) ^^^ (y &&& z)

def bigSigma0 (x : Nat) : Nat := rotr32 2 x ^^^ rotr32 13 x ^^^ rotr32 22 x

def bigSigma1 (x : Nat) : Nat := rotr32 6 x ^^^ rotr32 11 x ^^^ rotr32 25 x

def smallSigma0 (x : Nat) : Nat := rotr32 7 x ^^^ rotr32 18 x ^^^ (x >>> 3)

def smallSigma1 (x : Nat) : Nat := rotr32 17 x ^^^ rotr32 19 x ^^^ (x >>> 10)

/-- The 64 SHA-256 round constants. -/
def sha256K : List Nat :=
  [1116352408, 1899447441, 3049323471, 3921009573, 961987163,
   1508970993, 2453635748, 2870763221, 3624381080, 310598401,
   607225278, 1426881987, 1925078388, 2162078206, 2614888103,
   3248222580, 3835390401, 4022224774, 264347078, 604807628,
   770255983, 1249150122, 1555081692, 1996064986, 2554220882,
   2821834349, 2952996808, 3210313671, 3336571891, 3584528711,
   113926993, 338241895, 666307205, 773529912, 1294757372,
   1396182291, 1695183700, 1986661051, 2177026350, 2456956037,
   2730485921, 2820302411, 3259730800, 3345764771, 3516065817,
   3600352804, 4094571909, 275423344, 430227734, 506948616,
   659060556, 883997877, 958139571, 1322822218, 1537002063,
   1747873779, 1955562222, 2024104815, 2227730452, 2361852424,
   2428436474, 2756734187, 3204031479, 3329325298]

/-- The SHA-256 initial hash value. -/
def sha256H0 : List Nat :=
  [1779033703, 3144134277, 1013904242, 2773480762,
   1359893119, 2600822924, 528734635, 1541459225]

/-- Merkle–Damgård padding: `0x80`, zeros to 56 mod 64, then the
bit length as a 64-bit big-endian integer. -/
def sha256Pad (msg : List Nat) : List Nat :=
  let L := msg.length
  let padLen := (55 + 64 - L % 64) % 64
  msg ++ [0x80] ++ List.replicate padLen 0 ++ beBytes 8 (8 * L)

/-- Group bytes into big-endian 32-bit words. -/
def toWords : List Nat → List Nat
  | b0 :: b1 :: b2 :: b3 :: rest =>
      (((b0 * 256 + b1) * 256 + b2) * 256 + b3) :: toWords rest
  | _ => []

/-- Split a word list into 16-word blocks; structural recursion on a
fuel bound (any fuel ≥ the word count gives the full split). -/
def toBlocksGo : Nat → List Nat → List (List Nat)
  | 0, _ => []
  | _, [] => []
  | fuel + 1, w :: ws => ((w :: ws).take 16) :: toBlocksGo fuel ((w :: ws).drop 16)

/-- Split a word list into 16-word blocks. -/
def toBlocks (ws : List Nat) : List (List Nat) := toBlocksGo ws.length ws

/-- Expand a 16-word block into the 64-word message schedule. -/
def msgSchedule (block : List Nat) : List Nat :=
  (List.range 64).foldl
    (fun W t =>
      if t < 16 then W ++ [block.getD t 0]
      else W ++ [w32 (smallSigma1 (W.getD (t - 2) 0) + W.getD (t - 7) 0 +
                      smallSigma0 (W.getD (t - 15) 0) + W.getD (t - 16) 0)])
    []

/-- One SHA-256 compression step over a 512-bit block. -/
def compressBlock (H : List Nat) (block : List Nat) : List Nat :=
  let W := msgSchedule block
  let final := (List.range 64).foldl
    (fun st t =>
      match st with
      | [a, b, c, d, e, f, g, h] =>
          let T1 := w32 (h + bigSigma1 e + chFn e f g + sha256K.getD t 0 + W.getD t 0)
          let T2 := w32 (bigSigma0 a + majFn a b c)
          [w32 (T1 + T2), a, b, c, w32 (d + T1), e, f, g]
      | other => other)
    H
  List.zipWith (fun x y => w32 (x + y)) H final

/-- SHA-256 digest (32 bytes) of a byte list. -/
def sha256Bytes (msg : List Nat) : List Nat :=
  let blocks := toBlocks (toWords (sha256Pad msg))
  let H := blocks.foldl compressBlock sha256H0
  (H.map (beBytes 4)).flatten

/-- The client's `sha256(message)` helper: UTF-8 encode, digest,
lowercase hex. -/
def sha256Hex (message : String) : String := bytesToHex (sha256Bytes (utf8Encode message))

/-- The client's reply to `challenge:<c>`: it sends
`auth:` ++ `sha256(challenge + ":" + token)`
(`ws.send(\`auth:${response}\`)` in the `challenge:` branch). -/
def authReplyFor (challenge token : String) : String :=
  "auth:" ++ sha256Hex (challenge ++ ":" ++ token)

/-! ## Header Encoder (`auth_ok` branch)

```
const fileNameBytes = new TextEncoder().encode(file.name);
const header = new ArrayBuffer(4 + fileNameBytes.length + 8);
const view = new DataView(header);
view.setInt32(0, fileNameBytes.length, false); // big-endian
new Uint8Array(header, 4, fileNameBytes.length).set(fileNameBytes);
view.setBigInt64(4 + fileNameBytes.length, BigInt(file.size), false);
ws.send(header);
```
The buffer is a byte list; `DataView` writes overwrite a range in place. -/

/-- Overwrite the bytes of `buf` starting at offset `off` with `vs`
(writes past the end are dropped, as `ArrayBuffer` views cannot grow). -/
def writeBytesAt : List Nat → Nat → List Nat → List Nat
  | buf, _, [] => buf
  | [], _, _ :: _ => []
  | _ :: buf, 0, v :: vs => v :: writeBytesAt buf 0 vs
  | b :: buf, o + 1, vs => b :: writeBytesAt buf o vs

/-- `DataView.setInt32(off, v, false)`: big-endian, value taken mod 2^32. -/
def setInt32BE (buf : List Nat) (off v : Nat) : List Nat :=
  writeBytesAt buf off (beBytes 4 (v % 4294967296))

/-- `DataView.setBigInt64(off, v, false)`: big-endian, value taken mod 2^64. -/
def setBigInt64BE (buf : List Nat) (off v : Nat) : List Nat :=
  writeBytesAt buf off (beBytes 8 (v % 18446744073709551616))

/-- The metadata header frame built in the `auth_ok` branch. -/
def buildHeader (name : String) (size : Nat) : List Nat :=
  let fileNameBytes := utf8Encode name
  let header0 := List.replicate (4 + fileNameBytes.length + 8) 0
  let header1 := setInt32BE header0 0 fileNameBytes.length
  let header2 := writeBytesAt header1 4 fileNameBytes
  setBigInt64BE header2 (4 + fileNameBytes.length) size

/-! ## Chunker (`readNextChunk` / `fileReader.onload`)

```
const readNextChunk = () => { ... const slice = file.slice(offset, offset + CHUNK_SIZE); ... };
fileReader.onload = (e) => { ... ws.send(...); offset += byteLength;
  ... if (offset < file.size) { readNextChunk(); } ... };
```
`readNextChunk` is first invoked in the `header_ok` branch, so one read
is always issued; each `onload` hands `min(CHUNK_SIZE, size - offset)`
bytes to the transport and issues the next read only while
`offset < size`. -/

/-- The lengths of the chunks handed to `ws.send`, starting from byte
`offset` of a file of `size` bytes. -/
def chunksFrom (size offset : Nat) : List Nat :=
  if _h : offset + min CHUNK_SIZE (size - offset) < size then
    min CHUNK_SIZE (size - offset) :: chunksFrom size (offset + min CHUNK_SIZE (size - offset))
  else
    [min CHUNK_SIZE (size - offset)]
termination_by size - offset
decreasing_by
  have hC : 1 ≤ CHUNK_SIZE := by decide
  omega

/-- The full sequence of chunk lengths for a file of `size` bytes
(the first read is issued by the `header_ok` branch). -/
def chunkLengths (size : Nat) : List Nat := chunksFrom size 0

/-- `⌊100*offset/size + 1/2⌋` as a natural-number formula:
`(200*offset + size) / (2*size)`. -/
def pct (offset size : Nat) : Nat := (200 * offset + size) / (2 * size)

/-- `Math.round((offset / size) * 100)` on a JS `number`:
for `size > 0` this is `⌊100*offset/size + 1/2⌋`;
for `size = 0` the quotient is `NaN` (modelled as `none`). -/
def jsRoundPct (offset size : Nat) : Option Nat :=
  if size = 0 then none else some (pct offset size)

/-- The cumulative offsets after each `ws.send` of a chunk
(`offset += e.target.result.byteLength`). -/
def sentOffsets (size : Nat) : List Nat :=
  ((chunkLengths size).scanl (fun o l => o + l) 0).drop 1

/-- The value of `progress` recomputed after each chunk send
(`Math.round((offset / file.size) * 100)`). -/
def progressTrace (size : Nat) : List (Option Nat) :=
  (sentOffsets size).map (fun o => jsRoundPct o size)

/-! ## Upload state machine and scheduler

The `UploadableFile` record and the event handlers of the component:
`setFileState` maps over the entry list and merges changes into the
entry with the matching id; the scheduler `useEffect` admits pending
entries while fewer than `MAX_CONCURRENT_UPLOADS` are active.  The
WebSocket handle is abstracted to two flags: `hasWs` (a socket was
created for this entry) and `wsLive` (the socket is neither closed by
the client nor failed, so it can still deliver messages).  Messages and
chunk loads are only delivered on a live socket (`ws.readyState ===
WebSocket.OPEN` guards in the code; a failed socket delivers `close`
but no further messages). -/

/-- `type UploadStatus`. -/
inductive UploadStatus where
  | pending
  | connecting
  | authenticating
  | sending_metadata
  | uploading
  | success
  | error
deriving DecidableEq, Repr

/-- `interface UploadableFile` (`err` models the `error` field;
`offset` is the closure-local `offset` of `handleUpload`). -/
structure Entry where
  id : Nat
  size : Nat
  offset : Nat
  progress : Option Nat
  status : UploadStatus
  err : Option String
  hasWs : Bool
  wsLive : Bool
deriving DecidableEq, Repr

/-- The statuses counted as active by the scheduler:
`['connecting', 'authenticating', 'sending_metadata', 'uploading']`. -/
def isActive : UploadStatus → Bool
  | .connecting | .authenticating | .sending_metadata | .uploading => true
  | _ => false

/-- `files.filter(f => [...active...].includes(f.status)).length`. -/
def activeCount (s : List Entry) : Nat := s.countP (fun f => isActive f.status)

/-- `message.startsWith(p)` (model of `String.startsWith`). -/
def strStarts (m p : String) : Bool := p.data.isPrefixOf m.data

/-- A fresh entry created by `handleFileSelect`:
`{ id, file, progress: 0, status: 'pending' }`. -/
def mkPending (i size : Nat) : Entry :=
  { id := i, size := size, offset := 0, progress := some 0,
    status := .pending, err := none, hasWs := false, wsLive := false }

/-- The start of `handleUpload`: `setFileState(id, { status: 'connecting',
progress: 0, error: null })`, a new WebSocket is created and stored, and
the closure-local `offset` starts at 0. -/
def startE (f : Entry) : Entry :=
  { f with status := .connecting, progress := some 0, err := none,
           offset := 0, hasWs := true, wsLive := true }

/-- The `ws.onmessage` dispatch: the `if`/`else if` chain over the
message text.  Branches that call `ws.close()` drop `wsLive`.
A message matching no branch leaves the entry unchanged. -/
def onMessageE (m : String) (f : Entry) : Entry :=
  if strStarts m "challenge:" then
    { f with status := .authenticating }
  else if m = "auth_ok" then
    { f with status := .sending_metadata }
  else if m = "header_ok" then
    { f with status := .uploading }
  else if strStarts m "upload_ok:" then
    { f with status := .success, progress := some 100, wsLive := false }
  else if strStarts m "auth_error:" then
    { f with status := .error, err := some "Authentication failed", wsLive := false }
  else if strStarts m "header_error:" then
    { f with status := .error, err := some "Invalid header", wsLive := false }
  else if strStarts m "upload_error:" then
    { f with status := .error, err := some "Upload failed", wsLive := false }
  else if strStarts m "error:" then
    { f with status := .error, err := some "Server error", wsLive := false }
  else f

/-- `fileReader.onload`: hand the current slice (of length
`min(CHUNK_SIZE, size - offset)`) to the transport, advance `offset`,
recompute `progress = Math.round((offset / file.size) * 100)`.
The status is not touched. -/
def chunkE (f : Entry) : Entry :=
  { f with offset := f.offset + min CHUNK_SIZE (f.size - f.offset),
           progress := jsRoundPct (f.offset + min CHUNK_SIZE (f.size - f.offset)) f.size }

/-- `ws.onerror`: `setFileState(id, { status: 'error', error:
"Connection failed" })`; the failed socket delivers no further
messages. -/
def wsErrorE (f : Entry) : Entry :=
  { f with status := .error, err := some "Connection failed", wsLive := false }

/-- `ws.onclose`: transition to `error`/`Connection lost` unless the
entry is already `success` or `error`. -/
def wsCloseE (f : Entry) : Entry :=
  if f.status ≠ .success ∧ f.status ≠ .error then
    { f with status := .error, err := some "Connection lost", wsLive := false }
  else
    { f with wsLive := false }

/-- `setFileState`: map over the list and update the entry with the
matching id. -/
def updateById (s : List Entry) (i : Nat) (h : Entry → Entry) : List Entry :=
  s.map (fun f => if f.id = i then h f else f)

/-- `handleFileSelect`: append one pending entry per selected file, in
selection order.  `generateId` collisions are modelled away by skipping
an id that is already taken (the code assumes ids are unique). -/
def selectFiles (s : List Entry) (new : List (Nat × Nat)) : List Entry :=
  new.foldl
    (fun acc p =>
      if (acc.map Entry.id).contains p.1 then acc else acc ++ [mkPending p.1 p.2])
    s

/-- `pendingFiles.slice(0, MAX_CONCURRENT_UPLOADS - activeUploads)
.forEach(file => handleUpload(file))`: start the first `k` pending
entries, in list order. -/
def admitK : List Entry → Nat → List Entry
  | [], _ => []
  | f :: fs, k =>
      if f.status = .pending ∧ 0 < k then startE f :: admitK fs (k - 1)
      else f :: admitK fs k

/-- The scheduler `useEffect`: if fewer than `MAX_CONCURRENT_UPLOADS`
entries are active, admit pending entries up to the cap. -/
def schedule (s : List Entry) : List Entry :=
  if activeCount s < MAX_CONCURRENT_UPLOADS then
    admitK s (MAX_CONCURRENT_UPLOADS - activeCount s)
  else s

/-- The external events driving the component. -/
inductive Event where
  | select (new : List (Nat × Nat))
  | schedule
  | msg (i : Nat) (m : String)
  | chunkLoaded (i : Nat)
  | wsError (i : Nat)
  | wsClose (i : Nat)
  | cancel (i : Nat)
  | retry (i : Nat)
deriving DecidableEq, Repr

/-- Whether an event is the retry button
(`onRetry={() => handleUpload({ ...upload, status: 'pending' })}`). -/
def isRetry : Event → Bool
  | .retry _ => true
  | _ => false

/-- One step of the component under an event.
`cancel` is `cancelUpload`: close the socket if present and remove the
entry from the list.  `retry` (rendered only for `error` entries)
re-runs `handleUpload` on the same id, bypassing the scheduler. -/
def stepE (s : List Entry) (e : Event) : List Entry :=
  match e with
  | .select new => selectFiles s new
  | .schedule => schedule s
  | .msg i m => updateById s i (fun f => if f.wsLive then onMessageE m f else f)
  | .chunkLoaded i => updateById s i (fun f => if f.wsLive then chunkE f else f)
  | .wsError i => updateById s i (fun f => if f.wsLive then wsErrorE f else f)
  | .wsClose i => updateById s i (fun f => if f.hasWs then wsCloseE f else f)
  | .cancel i => s.filter (fun f => f.id ≠ i)
  | .retry i => updateById s i (fun f => if f.status = .error then startE f else f)

/-- The component state after a sequence of events, starting from the
empty entry list. -/
def run (es : List Event) : List Entry := es.foldl stepE []

/-! ## Derived state predicates and concrete entries -/

/-- Live sockets belong to active entries: messages can only arrive for
entries in an active status. -/
def activeOnLive (s : List Entry) : Prop :=
  ∀ f ∈ s, f.wsLive = true → isActive f.status = true

def InvC1 (s : List Entry) : Prop :=
  activeCount s ≤ MAX_CONCURRENT_UPLOADS ∧ activeOnLive s

/-- The message shapes the `ws.onmessage` chain recognizes, in branch
order. -/
def recognizedMsg (m : String) : Bool :=
  strStarts m "challenge:" || m == "auth_ok" || m == "header_ok" ||
  strStarts m "upload_ok:" || strStarts m "auth_error:" ||
  strStarts m "header_error:" || strStarts m "upload_error:" || strStarts m "error:"

/-- The per-entry invariant maintained by every reachable state. -/
structure EntryInv (f : Entry) : Prop where
  offset_le : f.offset ≤ f.size
  progress_bound : 1 ≤ f.size → ∃ p, f.progress = some p ∧ p ≤ 100
  progress_live : f.wsLive = true → 1 ≤ f.size → f.progress = some (pct f.offset f.size)
  progress_success : f.status = .success → f.progress = some 100
  uploading_live : f.status = .uploading → f.wsLive = true
  live_active : f.wsLive = true → isActive f.status = true

/-- Every reachable state satisfies the per-entry invariant. -/
def goodS (s : List Entry) : Prop := ∀ f ∈ s, EntryInv f

def idsNodup (s : List Entry) : Prop := (s.map Entry.id).Nodup

/-- A connecting entry (socket created and live). -/
def entryConnecting : Entry :=
  { id := 1, size := 5, offset := 0, progress := some 0,
    status := .connecting, err := none, hasWs := true, wsLive := true }

/-- An authenticating entry (socket live, challenge received). -/
def entryAuth : Entry :=
  { id := 1, size := 5, offset := 0, progress := some 0,
    status := .authenticating, err := none, hasWs := true, wsLive := true }

/-- An uploading entry that has sent all its bytes and awaits
`upload_ok:`. -/
def entryUploading : Entry :=
  { id := 1, size := 5, offset := 5, progress := some 100,
    status := .uploading, err := none, hasWs := true, wsLive := true }

/-! ## Supporting lemmas -/

theorem beBytes_length (k v : Nat) : (beBytes k v).length = k := by
  induction k generalizing v with
  | zero => rfl
  | succ k ih => simp [beBytes, ih]

theorem writeBytesAt_nil (buf : List Nat) (off : Nat) :
    writeBytesAt buf off [] = buf := by
  cases buf with
  | nil => rfl
  | cons b bs => cases off <;> rfl

theorem writeBytesAt_zero (vs : List Nat) :
    ∀ buf : List Nat, vs.length ≤ buf.length →
      writeBytesAt buf 0 vs = vs ++ buf.drop vs.length := by
  induction vs with
  | nil => intro buf _; simp [writeBytesAt_nil]
  | cons v vs ih =>
      intro buf hlen
      cases buf with
      | nil => simp at hlen
      | cons b bs =>
          simp only [writeBytesAt, List.length_cons, List.cons_append, List.drop_succ_cons]
          rw [ih bs (by simpa using hlen)]

theorem writeBytesAt_append (a : List Nat) :
    ∀ (b vs : List Nat) (k : Nat),
      writeBytesAt (a ++ b) (a.length + k) vs = a ++ writeBytesAt b k vs := by
  induction a with
  | nil => intro b vs k; simp
  | cons x a ih =>
      intro b vs k
      cases vs with
      | nil => simp [writeBytesAt_nil]
      | cons v vs =>
          have harith : (x :: a).length + k = (a.length + k) + 1 := by
            simp [List.length_cons]; omega
          rw [harith]
          simp only [List.cons_append, writeBytesAt, List.append_eq]
          rw [ih b (v :: vs) k]

/-! ## C2 — auth reply -/

set_option maxRecDepth 8000 in
/-- C2: for every challenge string and token, the client's auth reply is
the text message `auth:` followed by the lowercase hex encoding of
SHA-256 over the UTF-8 bytes of `challenge ++ ":" ++ token`; for the
golden vector, challenge `"abc123"` and token `"in-memory-token"`, the
response equals the fixed hex SHA-256 of `"abc123:in-memory-token"`. -/
theorem C2_auth_reply :
    (∀ challenge token : String,
      authReplyFor challenge token =
        "auth:" ++ bytesToHex (sha256Bytes (utf8Encode (challenge ++ ":" ++ token)))) ∧
    authReplyFor "abc123" "in-memory-token" =
      "auth:6067d75607dd1691afd49b29bb158ec9f9bd9375f0f27a661a2108ab2f20a52e" := by
  refine ⟨fun challenge token => rfl, ?_⟩
  rfl

/-! ## C8 — metadata header frame -/

/-- C8: the metadata header sent after auth success is a single binary
frame whose bytes are a big-endian int32 equal to the UTF-8 byte length
of the filename, then those filename bytes, then a big-endian int64
equal to the file size, total length `12 + filenameByteLength`
(the int32/int64 are in range by the hypotheses). -/
theorem C8_header_frame (name : String) (size : Nat)
    (hn : (utf8Encode name).length < 2 ^ 31) (hs : size < 2 ^ 63) :
    buildHeader name size =
      beBytes 4 (utf8Encode name).length ++ utf8Encode name ++ beBytes 8 size ∧
    (buildHeader name size).length = 12 + (utf8Encode name).length := by
  have hmod32 : (utf8Encode name).length % 4294967296 = (utf8Encode name).length :=
    Nat.mod_eq_of_lt (lt_trans hn (by norm_num))
  have hmod64 : size % 18446744073709551616 = size :=
    Nat.mod_eq_of_lt (lt_trans hs (by norm_num))
  set nb := utf8Encode name with hnb
  set n := nb.length with hn0
  have hstep1 :
      setInt32BE (List.replicate (4 + n + 8) 0) 0 n =
        beBytes 4 n ++ List.replicate (n + 8) 0 := by
    rw [setInt32BE, hmod32,
        writeBytesAt_zero _ _ (by simp only [beBytes_length, List.length_replicate]; omega)]
    rw [beBytes_length, List.drop_replicate]
    have harith : 4 + n + 8 - 4 = n + 8 := by omega
    rw [harith]
  have hstep2 :
      writeBytesAt (beBytes 4 n ++ List.replicate (n + 8) 0) 4 nb =
        beBytes 4 n ++ (nb ++ List.replicate 8 0) := by
    have happ := writeBytesAt_append (beBytes 4 n) (List.replicate (n + 8) 0) nb 0
    rw [beBytes_length, Nat.add_zero] at happ
    rw [happ,
        writeBytesAt_zero _ _ (by simp only [List.length_replicate, ← hn0]; omega)]
    rw [← hn0, List.drop_replicate]
    have harith : n + 8 - n = 8 := by omega
    rw [harith]
  have hstep3 :
      setBigInt64BE (beBytes 4 n ++ (nb ++ List.replicate 8 0)) (4 + n) size =
        beBytes 4 n ++ nb ++ beBytes 8 size := by
    rw [setBigInt64BE, hmod64]
    have hassoc : beBytes 4 n ++ (nb ++ List.replicate 8 0) =
        (beBytes 4 n ++ nb) ++ List.replicate 8 0 := by
      rw [List.append_assoc]
    have happ := writeBytesAt_append (beBytes 4 n ++ nb) (List.replicate 8 0) (beBytes 8 size) 0
    have hlen : (beBytes 4 n ++ nb).length = 4 + n := by
      simp only [List.length_append, beBytes_length, ← hn0]
    rw [hlen, Nat.add_zero] at happ
    rw [hassoc, happ,
        writeBytesAt_zero _ _ (by simp only [List.length_replicate, beBytes_length]; omega)]
    rw [beBytes_length, List.drop_replicate]
    simp
  have hmain : buildHeader name size =
      beBytes 4 n ++ nb ++ beBytes 8 size := by
    rw [buildHeader, ← hnb, ← hn0, hstep1, hstep2, hstep3]
  refine ⟨hmain, ?_⟩
  rw [hmain]
  simp only [List.length_append, beBytes_length, ← hn0]
  omega

/-- Witness for C8 at filename `"a.txt"` and size 5. -/
theorem C8_header_frame_witness :
    buildHeader "a.txt" 5 =
      beBytes 4 (utf8Encode "a.txt").length ++ utf8Encode "a.txt" ++ beBytes 8 5 ∧
    (buildHeader "a.txt" 5).length = 12 + (utf8Encode "a.txt").length :=
  C8_header_frame "a.txt" 5 (by decide) (by decide)

/-! ## Chunker lemmas -/

theorem chunksFrom_sum : ∀ (fuel size offset : Nat), size - offset ≤ fuel →
    offset ≤ size → (chunksFrom size offset).sum = size - offset := by
  intro fuel
  induction fuel with
  | zero =>
      intro size offset h1 h2
      have hC : 0 < CHUNK_SIZE := by decide
      rw [chunksFrom.eq_def, dif_neg (by omega)]
      simp only [List.sum_cons, List.sum_nil]
      omega
  | succ fuel ih =>
      intro size offset h1 h2
      have hC : 0 < CHUNK_SIZE := by decide
      rw [chunksFrom.eq_def]
      by_cases hc : offset + min CHUNK_SIZE (size - offset) < size
      · rw [dif_pos hc, List.sum_cons,
            ih size (offset + min CHUNK_SIZE (size - offset)) (by omega) (by omega)]
        omega
      · rw [dif_neg hc]
        simp only [List.sum_cons, List.sum_nil]
        omega

theorem chunksFrom_getD : ∀ (fuel size offset : Nat), size - offset ≤ fuel →
    ∀ i, (chunksFrom size offset).getD i 0 =
      min CHUNK_SIZE (size - offset - CHUNK_SIZE * i) := by
  intro fuel
  induction fuel with
  | zero =>
      intro size offset h1 i
      have hC : 0 < CHUNK_SIZE := by decide
      rw [chunksFrom.eq_def, dif_neg (by omega)]
      cases i with
      | zero => simp only [List.getD_cons_zero, Nat.mul_zero, Nat.sub_zero]
      | succ i =>
          simp only [List.getD_cons_succ]
          have hmul : CHUNK_SIZE * (i + 1) = CHUNK_SIZE * i + CHUNK_SIZE := by ring
          have hnil : (([] : List Nat)).getD i 0 = 0 := by simp
          rw [hnil]
          omega
  | succ fuel ih =>
      intro size offset h1 i
      have hC : 0 < CHUNK_SIZE := by decide
      rw [chunksFrom.eq_def]
      by_cases hc : offset + min CHUNK_SIZE (size - offset) < size
      · rw [dif_pos hc]
        cases i with
        | zero => simp only [List.getD_cons_zero, Nat.mul_zero, Nat.sub_zero]
        | succ i =>
            simp only [List.getD_cons_succ]
            rw [ih size (offset + min CHUNK_SIZE (size - offset)) (by omega) i]
            have hmul : CHUNK_SIZE * (i + 1) = CHUNK_SIZE * i + CHUNK_SIZE := by ring
            have hmin : min CHUNK_SIZE (size - offset) = CHUNK_SIZE := by omega
            rw [hmin]
            omega
      · rw [dif_neg hc]
        cases i with
        | zero => simp only [List.getD_cons_zero, Nat.mul_zero, Nat.sub_zero]
        | succ i =>
            simp only [List.getD_cons_succ]
            have hmul : CHUNK_SIZE * (i + 1) = CHUNK_SIZE * i + CHUNK_SIZE := by ring
            have hnil : (([] : List Nat)).getD i 0 = 0 := by simp
            rw [hnil]
            omega

theorem chunksFrom_length : ∀ (fuel size offset : Nat), size - offset ≤ fuel →
    offset < size →
    (chunksFrom size offset).length = (size - offset + CHUNK_SIZE - 1) / CHUNK_SIZE := by
  intro fuel
  induction fuel with
  | zero => intro size offset h1 h2; omega
  | succ fuel ih =>
      intro size offset h1 h2
      have hC : 0 < CHUNK_SIZE := by decide
      rw [chunksFrom.eq_def]
      by_cases hc : offset + min CHUNK_SIZE (size - offset) < size
      · rw [dif_pos hc]
        have hmin : min CHUNK_SIZE (size - offset) = CHUNK_SIZE := by omega
        rw [List.length_cons, hmin, ih size (offset + CHUNK_SIZE) (by omega) (by omega)]
        have he : size - offset + CHUNK_SIZE - 1
            = (size - (offset + CHUNK_SIZE) + CHUNK_SIZE - 1) + CHUNK_SIZE := by omega
        rw [he, Nat.add_div_right _ hC]
      · rw [dif_neg hc, List.length_cons, List.length_nil]
        have hceil : (size - offset + CHUNK_SIZE - 1) / CHUNK_SIZE = 1 := by
          apply Nat.div_eq_of_lt_le <;> omega
        rw [hceil]

/-- The chunk lengths always sum to the file size. -/
theorem chunkLengths_sum (size : Nat) : (chunkLengths size).sum = size := by
  have hx := chunksFrom_sum size size 0 (by omega) (by omega)
  simpa using hx

/-- Concrete evaluation: a 9 MiB file splits into chunks of 4, 4 and
1 MiB. -/
theorem chunkLengths_nineMiB :
    chunkLengths (9 * 2 ^ 20) = [4 * 2 ^ 20, 4 * 2 ^ 20, 2 ^ 20] := by
  rw [chunkLengths, chunksFrom.eq_def, dif_pos (by decide)]
  norm_num
  rw [chunksFrom.eq_def, dif_pos (by decide)]
  norm_num
  rw [chunksFrom.eq_def, dif_neg (by decide)]
  norm_num
  decide

/-! ## C4 — chunk count and coverage -/

/-- C4 counterexample: for a file of size 0 the upload hands one empty
chunk to the transport (`readNextChunk` is issued by the `header_ok`
branch and the resulting empty `ArrayBuffer` is truthy, so `ws.send`
runs), while the claim's `ceil(S/C)` is 0. -/
theorem C4_counterexample :
    chunkLengths 0 = [0] ∧ (0 + CHUNK_SIZE - 1) / CHUNK_SIZE = 0 := by
  constructor
  · rw [chunkLengths, chunksFrom.eq_def, dif_neg (by decide)]
    decide
  · decide

/-- C4 amended: for every file of size `S ≥ 1` and chunk size
`C = CHUNK_SIZE = 4 MiB`, the upload sends exactly `ceil(S/C)` binary
chunks, the i-th (0-based) chunk having length `min(C, S - C*i)` — so
they sequentially cover `[0, S)` — and the chunk lengths sum to `S`
exactly.  (For `S = 0` the code sends a single empty chunk instead of
none, so the claim's `ceil(S/C)` count fails there.) -/
theorem C4_amended (size : Nat) (h : 1 ≤ size) :
    (chunkLengths size).length = (size + CHUNK_SIZE - 1) / CHUNK_SIZE ∧
    (chunkLengths size).sum = size ∧
    ∀ i, (chunkLengths size).getD i 0 = min CHUNK_SIZE (size - CHUNK_SIZE * i) := by
  refine ⟨?_, chunkLengths_sum size, ?_⟩
  · have hx := chunksFrom_length size size 0 (by omega) (by omega)
    simpa using hx
  · intro i
    have hx := chunksFrom_getD size size 0 (by omega) i
    simpa using hx

/-- Witness for C4 at `S = 9 MiB` (third chunk inspected). -/
theorem C4_amended_witness :
    (chunkLengths (9 * 2 ^ 20)).length = (9 * 2 ^ 20 + CHUNK_SIZE - 1) / CHUNK_SIZE ∧
    (chunkLengths (9 * 2 ^ 20)).sum = 9 * 2 ^ 20 ∧
    (chunkLengths (9 * 2 ^ 20)).getD 2 0 =
      min CHUNK_SIZE (9 * 2 ^ 20 - CHUNK_SIZE * 2) :=
  ⟨(C4_amended (9 * 2 ^ 20) (by decide)).1,
   (C4_amended (9 * 2 ^ 20) (by decide)).2.1,
   (C4_amended (9 * 2 ^ 20) (by decide)).2.2 2⟩

/-! ## C5 — progress arithmetic -/

/-- C5 counterexample: the code recomputes progress with `Math.round`,
not floor: for the 9 MiB file the second chunk gives
`round(8MiB/9MiB*100) = 89`, while `floor` gives 88, so the actual
progress sequence is 44, 89, 100, not 44, 88, 100. -/
theorem C5_counterexample :
    progressTrace (9 * 2 ^ 20) = [some 44, some 89, some 100] ∧
    100 * (8 * 2 ^ 20) / (9 * 2 ^ 20) = 88 := by
  constructor
  · simp only [progressTrace, sentOffsets]
    rw [chunkLengths_nineMiB]
    decide
  · decide

/-- C5 amended: after each chunk is handed to the transport, progress is
recomputed as `Math.round(bytesSent / fileSize * 100)` (ties toward
`+∞`), i.e. `⌊bytesSent*100/fileSize + 1/2⌋`; a 9 MiB file with 4 MiB
chunks yields exactly 3 chunk sends of 4, 4 and 1 MiB with the progress
sequence 44, 89, 100. -/
theorem C5_amended :
    (∀ o s : Nat, 0 < s → jsRoundPct o s = some ⌊(o * 100 : ℚ) / s + 1 / 2⌋₊) ∧
    chunkLengths (9 * 2 ^ 20) = [4 * 2 ^ 20, 4 * 2 ^ 20, 2 ^ 20] ∧
    progressTrace (9 * 2 ^ 20) = [some 44, some 89, some 100] := by
  refine ⟨?_, chunkLengths_nineMiB, ?_⟩
  · intro o s hs
    simp only [jsRoundPct, pct]
    rw [if_neg (by omega)]
    congr 1
    have hs0 : (s : ℚ) ≠ 0 := Nat.cast_ne_zero.mpr (by omega)
    have hq : (o * 100 : ℚ) / s + 1 / 2 = ((200 * o + s : ℕ) : ℚ) / ((2 * s : ℕ) : ℚ) := by
      push_cast
      field_simp
      ring
    rw [hq, Nat.floor_div_nat, Nat.floor_natCast]
  · simp only [progressTrace, sentOffsets]
    rw [chunkLengths_nineMiB]
    decide

/-- Witness for C5 at `offset = 8`, `size = 9`. -/
theorem C5_amended_witness :
    (0 : Nat) < 9 ∧ jsRoundPct 8 9 = some ⌊(8 * 100 : ℚ) / 9 + 1 / 2⌋₊ :=
  ⟨by decide, C5_amended.1 8 9 (by decide)⟩

/-! ## Counting lemmas -/

theorem countP_map_le (p : Entry → Bool) (g : Entry → Entry) :
    ∀ l : List Entry, (∀ a ∈ l, p (g a) = true → p a = true) →
      (l.map g).countP p ≤ l.countP p := by
  intro l
  induction l with
  | nil => intro _; simp
  | cons a l ih =>
      intro h
      have h1 := ih (fun b hb hpb => h b (List.mem_cons_of_mem a hb) hpb)
      have h2 := h a (List.mem_cons_self a l)
      simp only [List.map_cons, List.countP_cons]
      by_cases hga : p (g a) = true
      · rw [if_pos hga, if_pos (h2 hga)]
        omega
      · rw [if_neg hga]
        by_cases ha : p a = true
        · rw [if_pos ha]; omega
        · rw [if_neg ha]; omega

theorem countP_map_lt (p : Entry → Bool) (g : Entry → Entry) :
    ∀ l : List Entry, (∀ a ∈ l, p (g a) = true → p a = true) →
    ∀ b ∈ l, p b = true → p (g b) = false →
      (l.map g).countP p < l.countP p := by
  intro l
  induction l with
  | nil => intro _ b hb; exact absurd hb (List.not_mem_nil b)
  | cons a l ih =>
      intro h b hb hpb hpgb
      simp only [List.map_cons, List.countP_cons]
      rcases List.mem_cons.mp hb with hba | hbl
      · subst hba
        rw [if_pos hpb, if_neg (by rw [hpgb]; exact Bool.false_ne_true)]
        have hle := countP_map_le p g l (fun c hc hpc => h c (List.mem_cons_of_mem _ hc) hpc)
        omega
      · have h1 := ih (fun c hc hpc => h c (List.mem_cons_of_mem a hc) hpc) b hbl hpb hpgb
        have h2 := h a (List.mem_cons_self a l)
        by_cases hga : p (g a) = true
        · rw [if_pos hga, if_pos (h2 hga)]; omega
        · rw [if_neg hga]
          by_cases ha : p a = true
          · rw [if_pos ha]; omega
          · rw [if_neg ha]; omega

theorem countP_filter_lt (p q : Entry → Bool) :
    ∀ l : List Entry, ∀ b ∈ l, p b = true → q b = false →
      (l.filter q).countP p < l.countP p := by
  intro l
  induction l with
  | nil => intro b hb; exact absurd hb (List.not_mem_nil b)
  | cons a l ih =>
      intro b hb hpb hqb
      rcases List.mem_cons.mp hb with hba | hbl
      · subst hba
        rw [List.filter_cons_of_neg (by rw [hqb]; exact Bool.false_ne_true)]
        have hle := List.Sublist.countP_le p (List.filter_sublist (p := q) l)
        simp only [List.countP_cons, if_pos hpb]
        omega
      · have h1 := ih b hbl hpb hqb
        by_cases hqa : q a = true
        · rw [List.filter_cons_of_pos hqa]
          simp only [List.countP_cons]
          omega
        · rw [List.filter_cons_of_neg hqa]
          simp only [List.countP_cons]
          by_cases ha : p a = true
          · rw [if_pos ha]; omega
          · rw [if_neg ha]; omega

/-! ## Entry-handler shape lemmas -/

theorem onMessageE_cases (m : String) (f : Entry) :
    onMessageE m f = { f with status := .authenticating } ∨
    onMessageE m f = { f with status := .sending_metadata } ∨
    onMessageE m f = { f with status := .uploading } ∨
    onMessageE m f = { f with status := .success, progress := some 100, wsLive := false } ∨
    (∃ e, onMessageE m f = { f with status := .error, err := some e, wsLive := false }) ∨
    onMessageE m f = f := by
  unfold onMessageE
  repeat' split
  · exact Or.inl rfl
  · exact Or.inr (Or.inl rfl)
  · exact Or.inr (Or.inr (Or.inl rfl))
  · exact Or.inr (Or.inr (Or.inr (Or.inl rfl)))
  · exact Or.inr (Or.inr (Or.inr (Or.inr (Or.inl ⟨_, rfl⟩))))
  · exact Or.inr (Or.inr (Or.inr (Or.inr (Or.inl ⟨_, rfl⟩))))
  · exact Or.inr (Or.inr (Or.inr (Or.inr (Or.inl ⟨_, rfl⟩))))
  · exact Or.inr (Or.inr (Or.inr (Or.inr (Or.inl ⟨_, rfl⟩))))
  · exact Or.inr (Or.inr (Or.inr (Or.inr (Or.inr rfl))))

theorem onMessageE_id (m : String) (f : Entry) : (onMessageE m f).id = f.id := by
  rcases onMessageE_cases m f with h | h | h | h | ⟨e, h⟩ | h <;> rw [h]

theorem onMessageE_size (m : String) (f : Entry) : (onMessageE m f).size = f.size := by
  rcases onMessageE_cases m f with h | h | h | h | ⟨e, h⟩ | h <;> rw [h]

theorem onMessageE_offset (m : String) (f : Entry) : (onMessageE m f).offset = f.offset := by
  rcases onMessageE_cases m f with h | h | h | h | ⟨e, h⟩ | h <;> rw [h]

theorem onMessageE_success_source (m : String) (f : Entry)
    (h : (onMessageE m f).status = .success) :
    f.status = .success ∨ strStarts m "upload_ok:" = true := by
  unfold onMessageE at h
  repeat' split at h
  all_goals simp_all

/-! ## Scheduler lemmas -/

theorem selectFiles_mem : ∀ (new : List (Nat × Nat)) (acc : List Entry) (f' : Entry),
    f' ∈ selectFiles acc new → f' ∈ acc ∨ ∃ i sz, f' = mkPending i sz := by
  intro new
  induction new with
  | nil => intro acc f' h; exact Or.inl h
  | cons p rest ih =>
      intro acc f' h
      rw [selectFiles, List.foldl_cons] at h
      rcases ih _ f' h with hmem | hnew
      · by_cases hc : ((acc.map Entry.id).contains p.1) = true
        · rw [if_pos hc] at hmem; exact Or.inl hmem
        · rw [if_neg hc] at hmem
          rcases List.mem_append.mp hmem with h1 | h2
          · exact Or.inl h1
          · rcases List.mem_singleton.mp h2 with rfl
            exact Or.inr ⟨p.1, p.2, rfl⟩
      · exact Or.inr hnew

theorem selectFiles_activeCount : ∀ (new : List (Nat × Nat)) (acc : List Entry),
    activeCount (selectFiles acc new) = activeCount acc := by
  intro new
  induction new with
  | nil => intro acc; rfl
  | cons p rest ih =>
      intro acc
      rw [selectFiles, List.foldl_cons]
      by_cases hc : ((acc.map Entry.id).contains p.1) = true
      · rw [if_pos hc]
        exact ih acc
      · rw [if_neg hc]
        have := ih (acc ++ [mkPending p.1 p.2])
        rw [selectFiles] at this
        rw [this, activeCount, List.countP_append]
        simp [mkPending, isActive, activeCount]

theorem admitK_mem : ∀ (l : List Entry) (k : Nat) (f' : Entry),
    f' ∈ admitK l k → ∃ f ∈ l, f' = f ∨ f' = startE f := by
  intro l
  induction l with
  | nil => intro k f' h; exact absurd h (List.not_mem_nil f')
  | cons a l ih =>
      intro k f' h
      rw [admitK] at h
      by_cases hc : a.status = UploadStatus.pending ∧ 0 < k
      · rw [if_pos hc] at h
        rcases List.mem_cons.mp h with h1 | h2
        · exact ⟨a, List.mem_cons_self a l, Or.inr h1⟩
        · rcases ih (k - 1) f' h2 with ⟨f, hf, hor⟩
          exact ⟨f, List.mem_cons_of_mem a hf, hor⟩
      · rw [if_neg hc] at h
        rcases List.mem_cons.mp h with h1 | h2
        · exact ⟨a, List.mem_cons_self a l, Or.inl h1⟩
        · rcases ih k f' h2 with ⟨f, hf, hor⟩
          exact ⟨f, List.mem_cons_of_mem a hf, hor⟩

theorem admitK_activeCount : ∀ (l : List Entry) (k : Nat),
    activeCount (admitK l k) ≤ activeCount l + k := by
  intro l
  induction l with
  | nil => intro k; simp [admitK, activeCount]
  | cons a l ih =>
      intro k
      rw [admitK]
      by_cases hc : a.status = UploadStatus.pending ∧ 0 < k
      · rw [if_pos hc]
        have hk := hc.2
        have hsa : isActive (startE a).status = true := by simp [startE, isActive]
        have hpa : isActive a.status = false := by rw [hc.1]; rfl
        have hih := ih (k - 1)
        simp [activeCount, List.countP_cons, hsa, hpa] at *
        omega
      · rw [if_neg hc]
        have hih := ih k
        simp only [activeCount, List.countP_cons] at *
        by_cases ha : isActive a.status = true
        · simp [ha] at *; omega
        · simp [ha] at *; omega

/-! ## The concurrency invariant (C1) -/

theorem onMessageE_live_active (m : String) (f : Entry)
    (hf : isActive f.status = true) :
    (onMessageE m f).wsLive = true → isActive (onMessageE m f).status = true := by
  intro hlive
  rcases onMessageE_cases m f with h | h | h | h | ⟨e, h⟩ | h <;> rw [h] <;> try rfl
  · rw [h] at hlive; simp at hlive
  · rw [h] at hlive; simp at hlive
  · exact hf

theorem mem_updateById (s : List Entry) (i : Nat) (g : Entry → Entry) (f' : Entry)
    (h : f' ∈ updateById s i g) : ∃ f ∈ s, f' = if f.id = i then g f else f := by
  unfold updateById at h
  rcases List.mem_map.mp h with ⟨f, hf, hEq⟩
  exact ⟨f, hf, hEq.symm⟩

theorem updateById_activeCount_le (s : List Entry) (i : Nat) (g : Entry → Entry)
    (hg : ∀ f ∈ s, isActive (g f).status = true → isActive f.status = true) :
    activeCount (updateById s i g) ≤ activeCount s := by
  unfold updateById activeCount
  apply countP_map_le
  intro a ha hpa
  by_cases hid : a.id = i
  · rw [if_pos hid] at hpa
    exact hg a ha hpa
  · rwa [if_neg hid] at hpa

theorem updateById_activeOnLive (s : List Entry) (i : Nat) (g : Entry → Entry)
    (hl : activeOnLive s)
    (hg : ∀ f ∈ s, (g f).wsLive = true → isActive (g f).status = true) :
    activeOnLive (updateById s i g) := by
  intro f' hf' hws
  rcases mem_updateById s i g f' hf' with ⟨f, hf, rfl⟩
  by_cases hid : f.id = i
  · rw [if_pos hid] at hws ⊢
    exact hg f hf hws
  · rw [if_neg hid] at hws ⊢
    exact hl f hf hws

theorem wsCloseE_wsLive (f : Entry) : (wsCloseE f).wsLive = false := by
  unfold wsCloseE
  split <;> rfl

theorem wsCloseE_id (f : Entry) : (wsCloseE f).id = f.id := by
  unfold wsCloseE
  split <;> rfl

theorem wsCloseE_status (f : Entry) :
    (wsCloseE f).status = .error ∨ (wsCloseE f).status = f.status := by
  unfold wsCloseE
  split
  · exact Or.inl rfl
  · exact Or.inr rfl

/-- Every non-retry step preserves the concurrency invariant: at most
`MAX_CONCURRENT_UPLOADS` active entries, and live sockets only on
active entries. -/
theorem stepE_invC1 (s : List Entry) (e : Event)
    (h : InvC1 s) (hr : isRetry e = false) : InvC1 (stepE s e) := by
  rcases h with ⟨hcap, hlive⟩
  cases e with
  | select new =>
      constructor
      · show activeCount (selectFiles s new) ≤ _
        rw [selectFiles_activeCount]
        exact hcap
      · intro f' hf' hws
        rcases selectFiles_mem new s f' hf' with hmem | ⟨i, sz, rfl⟩
        · exact hlive f' hmem hws
        · simp [mkPending] at hws
  | schedule =>
      show InvC1 (schedule s)
      rw [schedule]
      by_cases hact : activeCount s < MAX_CONCURRENT_UPLOADS
      · rw [if_pos hact]
        constructor
        · have := admitK_activeCount s (MAX_CONCURRENT_UPLOADS - activeCount s)
          omega
        · intro f' hf' hws
          rcases admitK_mem s _ f' hf' with ⟨f, hf, heq | heq⟩
          · rw [heq] at hws ⊢
            exact hlive f hf hws
          · rw [heq]
            simp [startE, isActive]
      · rw [if_neg hact]
        exact ⟨hcap, hlive⟩
  | msg i m =>
      constructor
      · refine le_trans (updateById_activeCount_le s i _ ?_) hcap
        intro f hf hpa
        by_cases hws : f.wsLive = true
        · exact hlive f hf hws
        · rwa [if_neg hws] at hpa
      · refine updateById_activeOnLive s i _ hlive ?_
        intro f hf hws
        by_cases hwsf : f.wsLive = true
        · rw [if_pos hwsf] at hws ⊢
          exact onMessageE_live_active m f (hlive f hf hwsf) hws
        · rw [if_neg hwsf] at hws
          exact absurd hws hwsf
  | chunkLoaded i =>
      constructor
      · refine le_trans (updateById_activeCount_le s i _ ?_) hcap
        intro f hf hpa
        by_cases hws : f.wsLive = true
        · rw [if_pos hws] at hpa
          exact hpa
        · rwa [if_neg hws] at hpa
      · refine updateById_activeOnLive s i _ hlive ?_
        intro f hf hws
        by_cases hwsf : f.wsLive = true
        · rw [if_pos hwsf] at hws ⊢
          show isActive f.status = true
          exact hlive f hf hwsf
        · rw [if_neg hwsf] at hws
          exact absurd hws hwsf
  | wsError i =>
      constructor
      · refine le_trans (updateById_activeCount_le s i _ ?_) hcap
        intro f hf hpa
        by_cases hws : f.wsLive = true
        · exact hlive f hf hws
        · rwa [if_neg hws] at hpa
      · refine updateById_activeOnLive s i _ hlive ?_
        intro f hf hws
        by_cases hwsf : f.wsLive = true
        · rw [if_pos hwsf] at hws
          simp [wsErrorE] at hws
        · rw [if_neg hwsf] at hws
          exact absurd hws hwsf
  | wsClose i =>
      constructor
      · refine le_trans (updateById_activeCount_le s i _ ?_) hcap
        intro f hf hpa
        by_cases hws : f.hasWs = true
        · rw [if_pos hws] at hpa
          rcases wsCloseE_status f with hst | hst
          · rw [hst] at hpa
            exact absurd hpa (by decide)
          · rwa [hst] at hpa
        · rwa [if_neg hws] at hpa
      · refine updateById_activeOnLive s i _ hlive ?_
        intro f hf hws
        by_cases hwsf : f.hasWs = true
        · rw [if_pos hwsf, wsCloseE_wsLive] at hws
          exact absurd hws (by decide)
        · rw [if_neg hwsf] at hws ⊢
          exact hlive f hf hws
  | cancel i =>
      constructor
      · exact le_trans (List.Sublist.countP_le _ (List.filter_sublist s)) hcap
      · intro f' hf' hws
        exact hlive f' (List.mem_of_mem_filter hf') hws
  | retry i =>
      exact absurd hr (by simp [isRetry])

/-- The invariant holds along every retry-free run. -/
theorem foldl_invC1 : ∀ (es : List Event) (s : List Entry), InvC1 s →
    (∀ e ∈ es, isRetry e = false) → InvC1 (es.foldl stepE s) := by
  intro es
  induction es with
  | nil => intro s h _; exact h
  | cons e es ih =>
      intro s h hr
      rw [List.foldl_cons]
      exact ih (stepE s e) (stepE_invC1 s e h (hr e (List.mem_cons_self e es)))
        (fun e' he' => hr e' (List.mem_cons_of_mem e he'))

/-! ## C1 — concurrency cap -/

set_option maxRecDepth 4000 in
/-- C1 counterexample: after 9 selections, one admission round, a
connection error on entry 1, a second admission round and a retry of
entry 1, the retry path (`onRetry={() => handleUpload({ ...upload,
status: 'pending' })}`) bypasses the scheduler and starts a ninth
connection: 9 entries are active, exceeding `MAX_CONCURRENT_UPLOADS = 8`. -/
theorem C1_counterexample :
    MAX_CONCURRENT_UPLOADS = 8 ∧
    activeCount (run
      [Event.select [(1, 1), (2, 1), (3, 1), (4, 1), (5, 1), (6, 1), (7, 1), (8, 1), (9, 1)],
       Event.schedule, Event.wsError 1, Event.schedule, Event.retry 1]) = 9 := by
  exact ⟨rfl, by decide⟩

/-- C1 amended: for every interleaving of file selections, admissions,
completions and errors — with no retries — the number of entries whose
status is in {connecting, authenticating, sending_metadata, uploading}
never exceeds `MAX_CONCURRENT_UPLOADS = 8`.  A retry of an errored
entry re-runs `handleUpload` directly, bypassing the scheduler, and can
push the active count to 9. -/
theorem C1_amended (es : List Event) (h : ∀ e ∈ es, isRetry e = false) :
    activeCount (run es) ≤ MAX_CONCURRENT_UPLOADS := by
  have hinv : InvC1 (run es) := by
    refine foldl_invC1 es [] ⟨by decide, ?_⟩ h
    intro f hf _
    exact absurd hf (List.not_mem_nil f)
  exact hinv.1

/-- Witness for C1 on a two-event retry-free run. -/
theorem C1_amended_witness :
    (∀ e ∈ [Event.select [(1, 1)], Event.schedule], isRetry e = false) ∧
    activeCount (run [Event.select [(1, 1)], Event.schedule]) ≤ MAX_CONCURRENT_UPLOADS :=
  ⟨by decide, C1_amended [Event.select [(1, 1)], Event.schedule] (by decide)⟩

/-! ## C3 — success only on `upload_ok:` -/

theorem map_status_map (g : Entry → Entry) (hg : ∀ f, (g f).status = f.status) :
    ∀ l : List Entry, (l.map g).map Entry.status = l.map Entry.status := by
  intro l
  induction l with
  | nil => rfl
  | cons a t ih => simp only [List.map_cons, hg, ih]

/-- C3: an entry's status becomes `success` only upon a server message
starting with `upload_ok:` (first conjunct: if no entry with id `i` is
`success` and after one step some entry with id `i` is, the event was a
`msg i m` with `m` starting with `upload_ok:`), and handing a chunk to
the transport never changes any status (second conjunct). -/
theorem C3_success_only_on_upload_ok :
    (∀ (s : List Entry) (e : Event) (i : Nat),
      (∀ f ∈ s, f.id = i → f.status ≠ .success) →
      (∃ f' ∈ stepE s e, f'.id = i ∧ f'.status = .success) →
      ∃ m, e = .msg i m ∧ strStarts m "upload_ok:" = true) ∧
    (∀ (s : List Entry) (i : Nat),
      (stepE s (.chunkLoaded i)).map Entry.status = s.map Entry.status) := by
  constructor
  · intro s e i hbefore hafter
    rcases hafter with ⟨f', hf', hid, hsucc⟩
    cases e with
    | select new =>
        rcases selectFiles_mem new s f' hf' with hmem | ⟨j, sz, heq⟩
        · exact absurd hsucc (hbefore f' hmem hid)
        · rw [heq] at hsucc
          simp [mkPending] at hsucc
    | schedule =>
        exfalso
        have hf2 : f' ∈ schedule s := hf'
        rw [schedule] at hf2
        by_cases hact : activeCount s < MAX_CONCURRENT_UPLOADS
        · rw [if_pos hact] at hf2
          rcases admitK_mem s _ f' hf2 with ⟨f, hf, heq | heq⟩
          · rw [heq] at hsucc hid
            exact (hbefore f hf hid) hsucc
          · rw [heq] at hsucc
            simp [startE] at hsucc
        · rw [if_neg hact] at hf2
          exact (hbefore f' hf2 hid) hsucc
    | msg j m =>
        rcases mem_updateById s j _ f' hf' with ⟨f, hf, heq⟩
        by_cases hidj : f.id = j
        · rw [if_pos hidj] at heq
          by_cases hws : f.wsLive = true
          · rw [if_pos hws] at heq
            have hid2 : f.id = i := by
              rw [heq, onMessageE_id] at hid
              exact hid
            rw [heq] at hsucc
            rcases onMessageE_success_source m f hsucc with hsrc | hsrc
            · exact absurd hsrc (hbefore f hf hid2)
            · refine ⟨m, ?_, hsrc⟩
              rw [← hid2, hidj]
          · rw [if_neg hws] at heq
            rw [heq] at hsucc hid
            exact absurd hsucc (hbefore f hf hid)
        · rw [if_neg hidj] at heq
          rw [heq] at hsucc hid
          exact absurd hsucc (hbefore f hf hid)
    | chunkLoaded j =>
        rcases mem_updateById s j _ f' hf' with ⟨f, hf, heq⟩
        have hst : f'.status = f.status := by
          rw [heq]
          split
          · split <;> rfl
          · rfl
        have hfid : f'.id = f.id := by
          rw [heq]
          split
          · split <;> rfl
          · rfl
        rw [hst] at hsucc
        rw [hfid] at hid
        exact absurd hsucc (hbefore f hf hid)
    | wsError j =>
        rcases mem_updateById s j _ f' hf' with ⟨f, hf, heq⟩
        have hne : f'.status = .error ∨ f' = f := by
          rw [heq]
          split
          · split
            · exact Or.inl rfl
            · exact Or.inr rfl
          · exact Or.inr rfl
        rcases hne with hst | hfe
        · rw [hst] at hsucc
          exact absurd hsucc (by decide)
        · rw [hfe] at hsucc hid
          exact absurd hsucc (hbefore f hf hid)
    | wsClose j =>
        rcases mem_updateById s j _ f' hf' with ⟨f, hf, heq⟩
        have hne : f'.status = .error ∨ f'.status = f.status := by
          rw [heq]
          split
          · split
            · exact wsCloseE_status f
            · exact Or.inr rfl
          · exact Or.inr rfl
        have hfid : f'.id = f.id := by
          rw [heq]
          split
          · split
            · exact wsCloseE_id f
            · rfl
          · rfl
        rcases hne with hst | hst
        · rw [hst] at hsucc
          exact absurd hsucc (by decide)
        · rw [hst] at hsucc
          rw [hfid] at hid
          exact absurd hsucc (hbefore f hf hid)
    | cancel j =>
        have hmem : f' ∈ s := List.mem_of_mem_filter hf'
        exact absurd hsucc (hbefore f' hmem hid)
    | retry j =>
        rcases mem_updateById s j _ f' hf' with ⟨f, hf, heq⟩
        have hne : f'.status = .connecting ∨ f' = f := by
          rw [heq]
          split
          · split
            · exact Or.inl rfl
            · exact Or.inr rfl
          · exact Or.inr rfl
        rcases hne with hst | hfe
        · rw [hst] at hsucc
          exact absurd hsucc (by decide)
        · rw [hfe] at hsucc hid
          exact absurd hsucc (hbefore f hf hid)
  · intro s i
    refine map_status_map _ ?_ s
    intro f
    dsimp only
    split
    · split <;> rfl
    · rfl

/-- Witness for C3: from a non-`success` uploading entry, the step that
produces `success` is the `upload_ok:` message. -/
theorem C3_success_only_witness :
    (∀ f ∈ [entryUploading], f.id = 1 → f.status ≠ UploadStatus.success) ∧
    (∃ m, Event.msg 1 "upload_ok:1" = Event.msg 1 m ∧ strStarts m "upload_ok:" = true) :=
  ⟨by decide,
   C3_success_only_on_upload_ok.1 [entryUploading] (.msg 1 "upload_ok:1") 1
     (by decide) (by decide)⟩

/-! ## C6 — cancellation -/

/-- C6 counterexample: cancelling the connecting entry removes it from
the collection (`prev.filter(f => f.id !== id)`); no entry with status
`error` (cause `cancelled`) ever exists. -/
theorem C6_counterexample :
    stepE [entryConnecting] (.cancel 1) = [] ∧
    ¬ ∃ f ∈ stepE [entryConnecting] (.cancel 1), f.status = .error := by
  decide

/-- C6 amended: `cancelUpload` closes the owned transport if present and
removes the entry from the collection — it does not transition the
entry to `error` with cause `cancelled`.  Cancellation is idempotent
(the entry is gone, so a second cancel is a no-op), it touches no
sibling entry, it never increases the active count, and it frees one
concurrency slot when the cancelled entry was active. -/
theorem C6_amended :
    (∀ (s : List Entry) (i : Nat),
      stepE (stepE s (.cancel i)) (.cancel i) = stepE s (.cancel i)) ∧
    (∀ (s : List Entry) (i : Nat) (f : Entry), f ∈ s → f.id ≠ i →
      f ∈ stepE s (.cancel i)) ∧
    (∀ (s : List Entry) (i : Nat) (f' : Entry), f' ∈ stepE s (.cancel i) →
      f'.id ≠ i ∧ f' ∈ s) ∧
    (∀ (s : List Entry) (i : Nat),
      activeCount (stepE s (.cancel i)) ≤ activeCount s) ∧
    (∀ (s : List Entry) (i : Nat) (f : Entry), f ∈ s → f.id = i →
      isActive f.status = true →
      activeCount (stepE s (.cancel i)) < activeCount s) := by
  refine ⟨?_, ?_, ?_, ?_, ?_⟩
  · intro s i
    show List.filter _ (List.filter _ s) = List.filter _ s
    refine List.filter_eq_self.mpr ?_
    intro a ha
    exact (List.mem_filter.mp ha).2
  · intro s i f hf hne
    show f ∈ List.filter _ s
    refine List.mem_filter.mpr ⟨hf, ?_⟩
    simp [hne]
  · intro s i f' hf'
    have h := List.mem_filter.mp hf'
    refine ⟨?_, h.1⟩
    simpa using h.2
  · intro s i
    exact List.Sublist.countP_le _ (List.filter_sublist s)
  · intro s i f hf hid hact
    refine countP_filter_lt _ _ s f hf hact ?_
    simp [hid]

/-- Witness for C6: cancelling the active connecting entry frees its
slot. -/
theorem C6_amended_witness :
    activeCount (stepE [entryConnecting] (.cancel 1)) < activeCount [entryConnecting] :=
  C6_amended.2.2.2.2 [entryConnecting] 1 entryConnecting (by decide) (by decide) (by decide)

/-! ## C7 — unexpected messages -/

theorem strStarts_self_append (p r : String) : strStarts (p ++ r) p = true := by
  refine (List.isPrefixOf_iff_prefix).mpr ?_
  rw [String.data_append]
  exact List.prefix_append _ _

theorem strStarts_trans_false (p q r : String)
    (h1 : strStarts p q = false) (h2 : strStarts q p = false) :
    strStarts (p ++ r) q = false := by
  cases hb : strStarts (p ++ r) q with
  | false => rfl
  | true =>
      exfalso
      have hq : q.data <+: p.data ++ r.data := by
        have hx := (List.isPrefixOf_iff_prefix).mp hb
        rwa [String.data_append] at hx
      have hp : p.data <+: p.data ++ r.data := List.prefix_append _ _
      by_cases hlen : q.data.length ≤ p.data.length
      · have hpre : q.data <+: p.data := List.prefix_of_prefix_length_le hq hp hlen
        have hsp : strStarts p q = true := (List.isPrefixOf_iff_prefix).mpr hpre
        simp [hsp] at h1
      · have hlen' : p.data.length ≤ q.data.length := by omega
        have hpre : p.data <+: q.data := List.prefix_of_prefix_length_le hp hq hlen'
        have hsp : strStarts q p = true := (List.isPrefixOf_iff_prefix).mpr hpre
        simp [hsp] at h2

theorem append_ne_of_not_starts (p q r : String) (h : strStarts q p = false) :
    p ++ r ≠ q := by
  intro heq
  have hpre : p.data <+: q.data := by
    rw [← heq, String.data_append]
    exact List.prefix_append _ _
  have hsp : strStarts q p = true := (List.isPrefixOf_iff_prefix).mpr hpre
  simp [hsp] at h

/-- C7 counterexample: an out-of-protocol message (`"ready"` while
authenticating) matches no branch of `ws.onmessage` and is silently
ignored — the entry does not transition to `error` as the claim
requires. -/
theorem C7_counterexample :
    stepE [entryAuth] (.msg 1 "ready") = [entryAuth] ∧
    entryAuth.status = .authenticating := by
  decide

/-- C7 amended: `ws.onmessage` tolerates unexpected messages rather
than treating them as protocol errors: a message matching none of the
recognized shapes leaves the entry unchanged (first conjunct).  Only
the explicit error messages (`auth_error:`, `header_error:`,
`upload_error:`, `error:`) transition the entry to `error` (middle
conjuncts), and recognized messages are acted on regardless of the
entry's current state — e.g. `header_ok` always sets `uploading`
(last conjunct) — so out-of-order messages are not rejected either. -/
theorem C7_amended :
    (∀ (f : Entry) (m : String), recognizedMsg m = false → onMessageE m f = f) ∧
    (∀ (f : Entry) (r : String), (onMessageE ("auth_error:" ++ r) f).status = .error) ∧
    (∀ (f : Entry) (r : String), (onMessageE ("header_error:" ++ r) f).status = .error) ∧
    (∀ (f : Entry) (r : String), (onMessageE ("upload_error:" ++ r) f).status = .error) ∧
    (∀ (f : Entry) (r : String), (onMessageE ("error:" ++ r) f).status = .error) ∧
    (∀ f : Entry, (onMessageE "header_ok" f).status = .uploading) := by
  refine ⟨?_, ?_, ?_, ?_, ?_, ?_⟩
  · intro f m h
    unfold recognizedMsg at h
    simp only [Bool.or_eq_false_iff] at h
    obtain ⟨⟨⟨⟨⟨⟨⟨h1, h2⟩, h3⟩, h4⟩, h5⟩, h6⟩, h7⟩, h8⟩ := h
    unfold onMessageE
    rw [if_neg (by simp [h1]), if_neg (by simpa using h2),
        if_neg (by simpa using h3), if_neg (by simp [h4]),
        if_neg (by simp [h5]), if_neg (by simp [h6]),
        if_neg (by simp [h7]), if_neg (by simp [h8])]
  · intro f r
    have c1 := strStarts_trans_false "auth_error:" "challenge:" r (by decide) (by decide)
    have c2 := append_ne_of_not_starts "auth_error:" "auth_ok" r (by decide)
    have c3 := append_ne_of_not_starts "auth_error:" "header_ok" r (by decide)
    have c4 := strStarts_trans_false "auth_error:" "upload_ok:" r (by decide) (by decide)
    have c5 := strStarts_self_append "auth_error:" r
    unfold onMessageE
    rw [if_neg (by simp [c1]), if_neg c2, if_neg c3, if_neg (by simp [c4]),
        if_pos c5]
  · intro f r
    have c1 := strStarts_trans_false "header_error:" "challenge:" r (by decide) (by decide)
    have c2 := append_ne_of_not_starts "header_error:" "auth_ok" r (by decide)
    have c3 := append_ne_of_not_starts "header_error:" "header_ok" r (by decide)
    have c4 := strStarts_trans_false "header_error:" "upload_ok:" r (by decide) (by decide)
    have c5 := strStarts_trans_false "header_error:" "auth_error:" r (by decide) (by decide)
    have c6 := strStarts_self_append "header_error:" r
    unfold onMessageE
    rw [if_neg (by simp [c1]), if_neg c2, if_neg c3, if_neg (by simp [c4]),
        if_neg (by simp [c5]), if_pos c6]
  · intro f r
    have c1 := strStarts_trans_false "upload_error:" "challenge:" r (by decide) (by decide)
    have c2 := append_ne_of_not_starts "upload_error:" "auth_ok" r (by decide)
    have c3 := append_ne_of_not_starts "upload_error:" "header_ok" r (by decide)
    have c4 := strStarts_trans_false "upload_error:" "upload_ok:" r (by decide) (by decide)
    have c5 := strStarts_trans_false "upload_error:" "auth_error:" r (by decide) (by decide)
    have c6 := strStarts_trans_false "upload_error:" "header_error:" r (by decide) (by decide)
    have c7 := strStarts_self_append "upload_error:" r
    unfold onMessageE
    rw [if_neg (by simp [c1]), if_neg c2, if_neg c3, if_neg (by simp [c4]),
        if_neg (by simp [c5]), if_neg (by simp [c6]), if_pos c7]
  · intro f r
    have c1 := strStarts_trans_false "error:" "challenge:" r (by decide) (by decide)
    have c2 := append_ne_of_not_starts "error:" "auth_ok" r (by decide)
    have c3 := append_ne_of_not_starts "error:" "header_ok" r (by decide)
    have c4 := strStarts_trans_false "error:" "upload_ok:" r (by decide) (by decide)
    have c5 := strStarts_trans_false "error:" "auth_error:" r (by decide) (by decide)
    have c6 := strStarts_trans_false "error:" "header_error:" r (by decide) (by decide)
    have c7 := strStarts_trans_false "error:" "upload_error:" r (by decide) (by decide)
    have c8 := strStarts_self_append "error:" r
    unfold onMessageE
    rw [if_neg (by simp [c1]), if_neg c2, if_neg c3, if_neg (by simp [c4]),
        if_neg (by simp [c5]), if_neg (by simp [c6]), if_neg (by simp [c7]),
        if_pos c8]
  · intro f
    unfold onMessageE
    rw [if_neg (by decide), if_neg (by decide), if_pos rfl]

/-- Witness for C7 at the unrecognized message `"ready"`. -/
theorem C7_amended_witness :
    recognizedMsg "ready" = false ∧ onMessageE "ready" entryAuth = entryAuth :=
  ⟨by decide, C7_amended.1 entryAuth "ready" (by decide)⟩

/-! ## Terminal-status lemmas -/

theorem isActive_not_terminal (st : UploadStatus) (h : isActive st = true) :
    st ≠ .success ∧ st ≠ .error := by
  cases st <;> simp_all [isActive]

theorem wsCloseE_active_status (f : Entry) (h : isActive f.status = true) :
    (wsCloseE f).status = .error := by
  have hn := isActive_not_terminal f.status h
  unfold wsCloseE
  rw [if_pos hn]

/-! ## C9 — progress invariants -/

theorem pct_zero (s : Nat) (h : 1 ≤ s) : pct 0 s = 0 := by
  unfold pct
  simp only [Nat.mul_zero, Nat.zero_add]
  apply Nat.div_eq_of_lt
  omega

theorem pct_le_100 (o s : Nat) (ho : o ≤ s) (hs : 1 ≤ s) : pct o s ≤ 100 := by
  unfold pct
  have h2 : (201 * s) / (2 * s) = 100 := by
    apply Nat.div_eq_of_lt_le <;> omega
  calc (200 * o + s) / (2 * s) ≤ (201 * s) / (2 * s) :=
        Nat.div_le_div_right (by omega)
    _ = 100 := h2

theorem pct_mono (o o' s : Nat) (h : o ≤ o') : pct o s ≤ pct o' s :=
  Nat.div_le_div_right (by omega)

theorem entryInv_mkPending (i sz : Nat) : EntryInv (mkPending i sz) := by
  refine ⟨?_, ?_, ?_, ?_, ?_, ?_⟩ <;> simp [mkPending]

theorem entryInv_startE (f : Entry) : EntryInv (startE f) := by
  refine ⟨?_, ?_, ?_, ?_, ?_, ?_⟩ <;> simp [startE, isActive]
  intro hsz
  rw [pct_zero f.size hsz]

theorem entryInv_chunkE (f : Entry) (h : EntryInv f) (hws : f.wsLive = true) :
    EntryInv (chunkE f) := by
  have hoff : f.offset + min CHUNK_SIZE (f.size - f.offset) ≤ f.size := by
    have := h.offset_le
    omega
  refine ⟨hoff, ?_, ?_, ?_, ?_, ?_⟩
  · intro hsz
    have hsz2 : 1 ≤ f.size := hsz
    show ∃ p, jsRoundPct (f.offset + min CHUNK_SIZE (f.size - f.offset)) f.size = some p ∧ p ≤ 100
    rw [jsRoundPct, if_neg (by omega)]
    exact ⟨_, rfl, pct_le_100 _ _ hoff hsz2⟩
  · intro _ hsz
    have hsz2 : 1 ≤ f.size := hsz
    show jsRoundPct (f.offset + min CHUNK_SIZE (f.size - f.offset)) f.size
        = some (pct (chunkE f).offset f.size)
    rw [jsRoundPct, if_neg (by omega)]
    rfl
  · intro hst
    have hact := h.live_active hws
    have := isActive_not_terminal f.status hact
    exact absurd hst this.1
  · intro hst
    exact hws
  · intro _
    exact h.live_active hws

theorem entryInv_onMessageE (m : String) (f : Entry) (h : EntryInv f)
    (hws : f.wsLive = true) : EntryInv (onMessageE m f) := by
  have hact := h.live_active hws
  have hterm := isActive_not_terminal f.status hact
  rcases onMessageE_cases m f with heq | heq | heq | heq | ⟨e, heq⟩ | heq <;> rw [heq]
  · exact ⟨h.offset_le, h.progress_bound, h.progress_live, (by intro hc; cases hc),
      (by intro hc; cases hc), (by intro _; rfl)⟩
  · exact ⟨h.offset_le, h.progress_bound, h.progress_live, (by intro hc; cases hc),
      (by intro hc; cases hc), (by intro _; rfl)⟩
  · exact ⟨h.offset_le, h.progress_bound, h.progress_live, (by intro hc; cases hc),
      (by intro _; exact hws), (by intro _; rfl)⟩
  · exact ⟨h.offset_le, (by intro _; exact ⟨100, rfl, le_refl 100⟩),
      (by intro hc; cases hc), (by intro _; rfl), (by intro hc; cases hc),
      (by intro hc; cases hc)⟩
  · exact ⟨h.offset_le, h.progress_bound, (by intro hc; cases hc),
      (by intro hc; cases hc), (by intro hc; cases hc), (by intro hc; cases hc)⟩
  · exact h

theorem entryInv_wsErrorE (f : Entry) (h : EntryInv f) : EntryInv (wsErrorE f) :=
  ⟨h.offset_le, h.progress_bound, (by intro hc; cases hc), (by intro hc; cases hc),
   (by intro hc; cases hc), (by intro hc; cases hc)⟩

theorem wsCloseE_progress (f : Entry) : (wsCloseE f).progress = f.progress := by
  unfold wsCloseE
  split <;> rfl

theorem entryInv_wsCloseE (f : Entry) (h : EntryInv f) : EntryInv (wsCloseE f) := by
  unfold wsCloseE
  split
  · exact ⟨h.offset_le, h.progress_bound, (by intro hc; cases hc), (by intro hc; cases hc),
      (by intro hc; cases hc), (by intro hc; cases hc)⟩
  · rename_i hterm
    refine ⟨h.offset_le, h.progress_bound, (by intro hc; cases hc), ?_, ?_,
      (by intro hc; cases hc)⟩
    · intro hst
      exact h.progress_success hst
    · intro hst
      exfalso
      rw [not_and_or, not_not, not_not] at hterm
      rcases hterm with hc | hc <;> rw [hst] at hc <;> cases hc

theorem stepE_goodS (s : List Entry) (e : Event) (h : goodS s) : goodS (stepE s e) := by
  cases e with
  | select new =>
      intro f' hf'
      rcases selectFiles_mem new s f' hf' with hmem | ⟨i, sz, heq⟩
      · exact h f' hmem
      · rw [heq]
        exact entryInv_mkPending i sz
  | schedule =>
      intro f' hf'
      have hf2 : f' ∈ schedule s := hf'
      rw [schedule] at hf2
      by_cases hact : activeCount s < MAX_CONCURRENT_UPLOADS
      · rw [if_pos hact] at hf2
        rcases admitK_mem s _ f' hf2 with ⟨f, hf, heq | heq⟩
        · rw [heq]; exact h f hf
        · rw [heq]; exact entryInv_startE f
      · rw [if_neg hact] at hf2
        exact h f' hf2
  | msg i m =>
      intro f' hf'
      rcases mem_updateById s i _ f' hf' with ⟨f, hf, heq⟩
      rw [heq]
      split
      · split
        · exact entryInv_onMessageE m f (h f hf) (by assumption)
        · exact h f hf
      · exact h f hf
  | chunkLoaded i =>
      intro f' hf'
      rcases mem_updateById s i _ f' hf' with ⟨f, hf, heq⟩
      rw [heq]
      split
      · split
        · exact entryInv_chunkE f (h f hf) (by assumption)
        · exact h f hf
      · exact h f hf
  | wsError i =>
      intro f' hf'
      rcases mem_updateById s i _ f' hf' with ⟨f, hf, heq⟩
      rw [heq]
      split
      · split
        · exact entryInv_wsErrorE f (h f hf)
        · exact h f hf
      · exact h f hf
  | wsClose i =>
      intro f' hf'
      rcases mem_updateById s i _ f' hf' with ⟨f, hf, heq⟩
      rw [heq]
      split
      · split
        · exact entryInv_wsCloseE f (h f hf)
        · exact h f hf
      · exact h f hf
  | cancel i =>
      intro f' hf'
      exact h f' (List.mem_of_mem_filter hf')
  | retry i =>
      intro f' hf'
      rcases mem_updateById s i _ f' hf' with ⟨f, hf, heq⟩
      rw [heq]
      split
      · split
        · exact entryInv_startE f
        · exact h f hf
      · exact h f hf

theorem foldl_goodS : ∀ (es : List Event) (s : List Entry), goodS s →
    goodS (es.foldl stepE s) := by
  intro es
  induction es with
  | nil => intro s h; exact h
  | cons e es ih =>
      intro s h
      rw [List.foldl_cons]
      exact ih (stepE s e) (stepE_goodS s e h)

theorem run_goodS (es : List Event) : goodS (run es) :=
  foldl_goodS es [] (fun f hf => absurd hf (List.not_mem_nil f))

/-! ## Uniqueness of ids along runs -/

theorem updateById_map_id (s : List Entry) (i : Nat) (g : Entry → Entry)
    (hg : ∀ f, (g f).id = f.id) :
    (updateById s i g).map Entry.id = s.map Entry.id := by
  induction s with
  | nil => rfl
  | cons a t ih =>
      show ((if a.id = i then g a else a) :: updateById t i g).map Entry.id
          = a.id :: t.map Entry.id
      rw [List.map_cons, ih]
      have hhead : (if a.id = i then g a else a).id = a.id := by
        split
        · exact hg a
        · rfl
      rw [hhead]

theorem selectFiles_nodup : ∀ (new : List (Nat × Nat)) (acc : List Entry),
    (acc.map Entry.id).Nodup → ((selectFiles acc new).map Entry.id).Nodup := by
  intro new
  induction new with
  | nil => intro acc h; exact h
  | cons p rest ih =>
      intro acc h
      rw [selectFiles, List.foldl_cons]
      by_cases hc : ((acc.map Entry.id).contains p.1) = true
      · rw [if_pos hc]
        exact ih acc h
      · rw [if_neg hc]
        refine ih _ ?_
        rw [List.map_append]
        have hm : ([mkPending p.1 p.2] : List Entry).map Entry.id = [p.1] := rfl
        rw [hm]
        have hnotmem : p.1 ∉ acc.map Entry.id := by
          intro hmem
          exact hc (List.elem_eq_true_of_mem hmem)
        refine List.nodup_append.mpr ⟨h, List.nodup_singleton _, ?_⟩
        intro a ha hamem
        rw [List.mem_singleton] at hamem
        rw [hamem] at ha
        exact hnotmem ha

theorem admitK_map_id : ∀ (l : List Entry) (k : Nat),
    (admitK l k).map Entry.id = l.map Entry.id := by
  intro l
  induction l with
  | nil => intro k; rfl
  | cons a t ih =>
      intro k
      rw [admitK]
      by_cases hc : a.status = UploadStatus.pending ∧ 0 < k
      · rw [if_pos hc, List.map_cons, List.map_cons, ih]
        rfl
      · rw [if_neg hc, List.map_cons, List.map_cons, ih]

theorem stepE_nodup (s : List Entry) (e : Event) (h : idsNodup s) :
    idsNodup (stepE s e) := by
  cases e with
  | select new => exact selectFiles_nodup new s h
  | schedule =>
      show ((schedule s).map Entry.id).Nodup
      rw [schedule]
      by_cases hact : activeCount s < MAX_CONCURRENT_UPLOADS
      · rw [if_pos hact, admitK_map_id]
        exact h
      · rw [if_neg hact]
        exact h
  | msg i m =>
      have hg : ∀ f : Entry,
          ((fun f => if f.wsLive = true then onMessageE m f else f) f).id = f.id := by
        intro f
        dsimp only
        split
        · exact onMessageE_id m f
        · rfl
      show ((updateById s i _).map Entry.id).Nodup
      rw [updateById_map_id s i _ hg]
      exact h
  | chunkLoaded i =>
      have hg : ∀ f : Entry,
          ((fun f => if f.wsLive = true then chunkE f else f) f).id = f.id := by
        intro f
        dsimp only
        split <;> rfl
      show ((updateById s i _).map Entry.id).Nodup
      rw [updateById_map_id s i _ hg]
      exact h
  | wsError i =>
      have hg : ∀ f : Entry,
          ((fun f => if f.wsLive = true then wsErrorE f else f) f).id = f.id := by
        intro f
        dsimp only
        split <;> rfl
      show ((updateById s i _).map Entry.id).Nodup
      rw [updateById_map_id s i _ hg]
      exact h
  | wsClose i =>
      have hg : ∀ f : Entry,
          ((fun f => if f.hasWs = true then wsCloseE f else f) f).id = f.id := by
        intro f
        dsimp only
        split
        · exact wsCloseE_id f
        · rfl
      show ((updateById s i _).map Entry.id).Nodup
      rw [updateById_map_id s i _ hg]
      exact h
  | cancel i =>
      exact List.Nodup.sublist (List.Sublist.map Entry.id (List.filter_sublist s)) h
  | retry i =>
      have hg : ∀ f : Entry,
          ((fun f => if f.status = UploadStatus.error then startE f else f) f).id = f.id := by
        intro f
        dsimp only
        split <;> rfl
      show ((updateById s i _).map Entry.id).Nodup
      rw [updateById_map_id s i _ hg]
      exact h

theorem foldl_nodup : ∀ (es : List Event) (s : List Entry), idsNodup s →
    idsNodup (es.foldl stepE s) := by
  intro es
  induction es with
  | nil => intro s h; exact h
  | cons e es ih =>
      intro s h
      rw [List.foldl_cons]
      exact ih (stepE s e) (stepE_nodup s e h)

theorem run_nodup (es : List Event) : idsNodup (run es) :=
  foldl_nodup es [] List.nodup_nil

theorem nodup_same_id : ∀ (s : List Entry), idsNodup s →
    ∀ f f' : Entry, f ∈ s → f' ∈ s → f'.id = f.id → f' = f := by
  intro s
  induction s with
  | nil => intro _ f f' hf; exact absurd hf (List.not_mem_nil f)
  | cons a t ih =>
      intro h f f' hf hf' hid
      rw [idsNodup, List.map_cons, List.nodup_cons] at h
      rcases List.mem_cons.mp hf with rfl | hft
      · rcases List.mem_cons.mp hf' with rfl | hf't
        · rfl
        · exact absurd (List.mem_map.mpr ⟨f', hf't, hid⟩) h.1
      · rcases List.mem_cons.mp hf' with rfl | hf't
        · exact absurd (List.mem_map.mpr ⟨f, hft, hid.symm⟩) h.1
        · exact ih h.2 f f' hft hf't hid

/-- C9 counterexample: after the last chunk of a 5-byte file is handed
to the transport, progress is 100 while the status is still
`uploading` (the client waits for `upload_ok:`), so progress = 100 does
not imply `success`. -/
theorem C9_counterexample :
    (run [Event.select [(1, 5)], Event.schedule, Event.msg 1 "challenge:x",
          Event.msg 1 "auth_ok", Event.msg 1 "header_ok", Event.chunkLoaded 1]).map
      (fun f => (f.status, f.progress)) = [(UploadStatus.uploading, some 100)] := by
  decide

/-- C9 amended: for every reachable state and every entry with file
size ≥ 1, progress is an integer in [0, 100]; progress starts at 0 for
a fresh entry; at `success` progress equals 100; and progress is
non-decreasing across any step that keeps the entry's status
`uploading`.  (Progress also reaches 100 when the final chunk is handed
to the transport, while the status is still `uploading`, so 100 does
not imply `success`; and for a 0-byte file the computation
`Math.round((0/0)*100)` yields `NaN`.) -/
theorem C9_amended :
    (∀ (es : List Event), ∀ f ∈ run es, 1 ≤ f.size →
        ∃ p, f.progress = some p ∧ p ≤ 100) ∧
    (∀ i sz : Nat, (mkPending i sz).progress = some 0) ∧
    (∀ (es : List Event), ∀ f ∈ run es, f.status = .success → f.progress = some 100) ∧
    (∀ (es : List Event) (e : Event) (f f' : Entry), f ∈ run es →
        f.status = .uploading → 1 ≤ f.size →
        f' ∈ stepE (run es) e → f'.id = f.id → f'.status = .uploading →
        ∃ p p', f.progress = some p ∧ f'.progress = some p' ∧ p ≤ p') := by
  refine ⟨?_, ?_, ?_, ?_⟩
  · intro es f hf hsz
    exact (run_goodS es f hf).progress_bound hsz
  · intro i sz
    rfl
  · intro es f hf hst
    exact (run_goodS es f hf).progress_success hst
  · intro es e f f' hf hup hsz hf' hid hup'
    have hg := run_goodS es
    have hn := run_nodup es
    have hinv := hg f hf
    have hlivef : f.wsLive = true := hinv.uploading_live hup
    have hprog : f.progress = some (pct f.offset f.size) := hinv.progress_live hlivef hsz
    cases e with
    | select new =>
        rcases selectFiles_mem new (run es) f' hf' with hmem | ⟨j, sz', heq⟩
        · have heq2 : f' = f := nodup_same_id (run es) hn f f' hf hmem hid
          rw [heq2]
          exact ⟨_, _, hprog, hprog, le_refl _⟩
        · rw [heq] at hup'
          simp [mkPending] at hup'
    | schedule =>
        have hf2 : f' ∈ schedule (run es) := hf'
        rw [schedule] at hf2
        by_cases hact : activeCount (run es) < MAX_CONCURRENT_UPLOADS
        · rw [if_pos hact] at hf2
          rcases admitK_mem _ _ f' hf2 with ⟨g, hgmem, heq | heq⟩
          · rw [heq] at hid ⊢
            have heq2 : g = f := nodup_same_id _ hn f g hf hgmem hid
            rw [heq2]
            exact ⟨_, _, hprog, hprog, le_refl _⟩
          · rw [heq] at hup'
            simp [startE] at hup'
        · rw [if_neg hact] at hf2
          have heq2 : f' = f := nodup_same_id _ hn f f' hf hf2 hid
          rw [heq2]
          exact ⟨_, _, hprog, hprog, le_refl _⟩
    | msg j m =>
        rcases mem_updateById _ j _ f' hf' with ⟨g, hgmem, heq⟩
        by_cases hgid : g.id = j
        · rw [if_pos hgid] at heq
          by_cases hgws : g.wsLive = true
          · rw [if_pos hgws] at heq
            have hgid2 : g.id = f.id := by
              rw [← onMessageE_id m g, ← heq]
              exact hid
            have heq2 : g = f := nodup_same_id _ hn f g hf hgmem hgid2
            rw [heq2] at heq
            rcases onMessageE_cases m f with hc | hc | hc | hc | ⟨er, hc⟩ | hc <;>
              rw [hc] at heq
            · rw [heq] at hup'
              simp at hup'
            · rw [heq] at hup'
              simp at hup'
            · rw [heq]
              exact ⟨_, _, hprog, hprog, le_refl _⟩
            · rw [heq] at hup'
              simp at hup'
            · rw [heq] at hup'
              simp at hup'
            · rw [heq]
              exact ⟨_, _, hprog, hprog, le_refl _⟩
          · rw [if_neg hgws] at heq
            rw [heq] at hid ⊢
            have heq2 : g = f := nodup_same_id _ hn f g hf hgmem hid
            rw [heq2]
            exact ⟨_, _, hprog, hprog, le_refl _⟩
        · rw [if_neg hgid] at heq
          rw [heq] at hid ⊢
          have heq2 : g = f := nodup_same_id _ hn f g hf hgmem hid
          rw [heq2]
          exact ⟨_, _, hprog, hprog, le_refl _⟩
    | chunkLoaded j =>
        rcases mem_updateById _ j _ f' hf' with ⟨g, hgmem, heq⟩
        by_cases hgid : g.id = j
        · rw [if_pos hgid] at heq
          by_cases hgws : g.wsLive = true
          · rw [if_pos hgws] at heq
            have hgid2 : g.id = f.id := by
              rw [← show (chunkE g).id = g.id from rfl, ← heq]
              exact hid
            have heq2 : g = f := nodup_same_id _ hn f g hf hgmem hgid2
            rw [heq2] at heq
            rw [heq]
            refine ⟨pct f.offset f.size,
              pct (f.offset + min CHUNK_SIZE (f.size - f.offset)) f.size, hprog, ?_, ?_⟩
            · show jsRoundPct (f.offset + min CHUNK_SIZE (f.size - f.offset)) f.size = _
              rw [jsRoundPct, if_neg (by omega)]
            · exact pct_mono _ _ _ (by omega)
          · rw [if_neg hgws] at heq
            rw [heq] at hid ⊢
            have heq2 : g = f := nodup_same_id _ hn f g hf hgmem hid
            rw [heq2]
            exact ⟨_, _, hprog, hprog, le_refl _⟩
        · rw [if_neg hgid] at heq
          rw [heq] at hid ⊢
          have heq2 : g = f := nodup_same_id _ hn f g hf hgmem hid
          rw [heq2]
          exact ⟨_, _, hprog, hprog, le_refl _⟩
    | wsError j =>
        rcases mem_updateById _ j _ f' hf' with ⟨g, hgmem, heq⟩
        have houtcome : f' = g ∨ f'.status = .error := by
          rw [heq]
          split
          · split
            · exact Or.inr rfl
            · exact Or.inl rfl
          · exact Or.inl rfl
        rcases houtcome with heq2 | hst
        · rw [heq2] at hid ⊢
          have heq3 : g = f := nodup_same_id _ hn f g hf hgmem hid
          rw [heq3]
          exact ⟨_, _, hprog, hprog, le_refl _⟩
        · have hcontra := hst.symm.trans hup'
          exact absurd hcontra (by decide)
    | wsClose j =>
        rcases mem_updateById _ j _ f' hf' with ⟨g, hgmem, heq⟩
        have houtcome : f' = g ∨ f' = wsCloseE g := by
          rw [heq]
          split
          · split
            · exact Or.inr rfl
            · exact Or.inl rfl
          · exact Or.inl rfl
        rcases houtcome with heq2 | heq2
        · rw [heq2] at hid ⊢
          have heq3 : g = f := nodup_same_id _ hn f g hf hgmem hid
          rw [heq3]
          exact ⟨_, _, hprog, hprog, le_refl _⟩
        · rcases wsCloseE_status g with hst | hst
          · rw [heq2, hst] at hup'
            exact absurd hup' (by decide)
          · rw [heq2] at hid ⊢
            rw [wsCloseE_id] at hid
            have heq3 : g = f := nodup_same_id _ hn f g hf hgmem hid
            rw [heq3, wsCloseE_progress]
            exact ⟨_, _, hprog, hprog, le_refl _⟩
    | cancel j =>
        have hmem : f' ∈ run es := List.mem_of_mem_filter hf'
        have heq2 : f' = f := nodup_same_id _ hn f f' hf hmem hid
        rw [heq2]
        exact ⟨_, _, hprog, hprog, le_refl _⟩
    | retry j =>
        rcases mem_updateById _ j _ f' hf' with ⟨g, hgmem, heq⟩
        have houtcome : f' = g ∨ f'.status = .connecting := by
          rw [heq]
          split
          · split
            · exact Or.inr rfl
            · exact Or.inl rfl
          · exact Or.inl rfl
        rcases houtcome with heq2 | hst
        · rw [heq2] at hid ⊢
          have heq3 : g = f := nodup_same_id _ hn f g hf hgmem hid
          rw [heq3]
          exact ⟨_, _, hprog, hprog, le_refl _⟩
        · have hcontra := hst.symm.trans hup'
          exact absurd hcontra (by decide)

/-- Witness for C9: the freshly selected entry has a progress value in
[0, 100]. -/
theorem C9_amended_witness :
    mkPending 1 5 ∈ run [Event.select [(1, 5)]] ∧ (1 : Nat) ≤ 5 ∧
    (∃ p, (mkPending 1 5).progress = some p ∧ p ≤ 100) :=
  ⟨by decide, by decide,
   C9_amended.1 [Event.select [(1, 5)]] (mkPending 1 5) (by decide) (by decide)⟩

/-! ## C10 — error locality -/

/-- C10: every error event for one entry mutates only that entry —
message dispatch, `ws.onerror` and `ws.onclose` for id `i` leave every
entry with a different id unchanged (first three conjuncts) and remove
no entry (fourth conjunct) — and an error on an active entry strictly
decreases the active count, releasing its concurrency slot for the
scheduler (last three conjuncts: `ws.onerror`, `ws.onclose`, and an
error-message dispatch). -/
theorem C10_error_locality :
    (∀ (s : List Entry) (i : Nat) (m : String) (f : Entry), f ∈ s → f.id ≠ i →
      f ∈ stepE s (.msg i m)) ∧
    (∀ (s : List Entry) (i : Nat) (f : Entry), f ∈ s → f.id ≠ i →
      f ∈ stepE s (.wsError i)) ∧
    (∀ (s : List Entry) (i : Nat) (f : Entry), f ∈ s → f.id ≠ i →
      f ∈ stepE s (.wsClose i)) ∧
    (∀ (s : List Entry) (i : Nat),
      (stepE s (.wsError i)).length = s.length ∧
      (stepE s (.wsClose i)).length = s.length) ∧
    (∀ (s : List Entry) (i : Nat) (f : Entry), f ∈ s → f.id = i →
      isActive f.status = true → f.wsLive = true →
      activeCount (stepE s (.wsError i)) < activeCount s) ∧
    (∀ (s : List Entry) (i : Nat) (f : Entry), f ∈ s → f.id = i →
      isActive f.status = true → f.hasWs = true →
      activeCount (stepE s (.wsClose i)) < activeCount s) ∧
    (∀ (s : List Entry) (i : Nat) (m : String) (f : Entry), idsNodup s →
      f ∈ s → f.id = i → isActive f.status = true → f.wsLive = true →
      (onMessageE m f).status = .error →
      activeCount (stepE s (.msg i m)) < activeCount s) := by
  refine ⟨?_, ?_, ?_, ?_, ?_, ?_, ?_⟩
  · intro s i m f hf hne
    show f ∈ List.map _ s
    exact List.mem_map.mpr ⟨f, hf, by rw [if_neg hne]⟩
  · intro s i f hf hne
    show f ∈ List.map _ s
    exact List.mem_map.mpr ⟨f, hf, by rw [if_neg hne]⟩
  · intro s i f hf hne
    show f ∈ List.map _ s
    exact List.mem_map.mpr ⟨f, hf, by rw [if_neg hne]⟩
  · intro s i
    constructor
    · show (List.map _ s).length = s.length
      exact List.length_map _ _
    · show (List.map _ s).length = s.length
      exact List.length_map _ _
  · intro s i f hf hid hact hws
    show (List.map _ s).countP _ < s.countP _
    refine countP_map_lt _ _ s ?_ f hf hact ?_
    · intro a ha hpa
      by_cases haid : a.id = i
      · rw [if_pos haid] at hpa
        dsimp only at hpa
        by_cases haws : a.wsLive = true
        · rw [if_pos haws] at hpa
          simp [wsErrorE, isActive] at hpa
        · rwa [if_neg haws] at hpa
      · rwa [if_neg haid] at hpa
    · rw [if_pos hid]
      dsimp only
      rw [if_pos hws]
      rfl
  · intro s i f hf hid hact hws
    show (List.map _ s).countP _ < s.countP _
    refine countP_map_lt _ _ s ?_ f hf hact ?_
    · intro a ha hpa
      by_cases haid : a.id = i
      · rw [if_pos haid] at hpa
        dsimp only at hpa
        by_cases hah : a.hasWs = true
        · rw [if_pos hah] at hpa
          rcases wsCloseE_status a with hst | hst
          · rw [hst] at hpa
            exact absurd hpa (by decide)
          · rwa [hst] at hpa
        · rwa [if_neg hah] at hpa
      · rwa [if_neg haid] at hpa
    · rw [if_pos hid]
      dsimp only
      rw [if_pos hws]
      show isActive (wsCloseE f).status = false
      rw [wsCloseE_active_status f hact]
      rfl
  · intro s i m f hn hf hid hact hws herr
    show (List.map _ s).countP _ < s.countP _
    refine countP_map_lt _ _ s ?_ f hf hact ?_
    · intro a ha hpa
      by_cases haid : a.id = i
      · have haf : a = f := nodup_same_id s hn f a hf ha (by rw [haid, hid])
        rw [if_pos haid] at hpa
        dsimp only at hpa
        by_cases haws : a.wsLive = true
        · rw [if_pos haws] at hpa
          rw [haf] at hpa
          rw [herr] at hpa
          exact absurd hpa (by decide)
        · rwa [if_neg haws] at hpa
      · rwa [if_neg haid] at hpa
    · rw [if_pos hid]
      dsimp only
      rw [if_pos hws, herr]
      rfl

/-- Witness for C10: a connection error on the active connecting entry
releases its slot. -/
theorem C10_error_locality_witness :
    activeCount (stepE [entryConnecting] (.wsError 1)) < activeCount [entryConnecting] :=
  C10_error_locality.2.2.2.2.1 [entryConnecting] 1 entryConnecting
    (by decide) (by decide) (by decide) (by decide)

end FileDropper
